import Mathlib

/-!
# ReactRecipe: the recipe store of `src/App.jsx`

A shallow embedding of the state logic of the single-file recipe application:
the collection updaters (`saveRecipe`, `deleteRecipe`, `toggleFavorite`), the
derived views (`allTags`, `filtered`), the form's `submit` and the initial
state read from local storage.

JavaScript strings are Lean strings, arrays are lists, `undefined`/`null`
fields are `Option`s. Functions of the host (the browser) whose full behaviour
is not part of the program are parameters: `toLowerCase`, `localeCompare`,
`JSON.parse` and the results of `uid`. The examples run on `asciiHost` and on
`jsonParse`, a parser for the grammar of JSON.
-/

namespace ReactRecipe

set_option exponentiation.threshold 3000

/-! ## Data model -/

/-- A JavaScript number: `NaN`, an infinity, or a finite value written as the
exact decimal `m * 10 ^ e` (every binary64 number has one). -/
inductive JSNum where
  | nan
  | inf (neg : Bool)
  | dec (m : Int) (e : Int)
deriving DecidableEq

/-- The record held in the collection (lines 10-45 and 128-138). `tags` and
`ingredients` may be missing on persisted data, which the code guards with
`|| []`. -/
structure Recipe where
  id : String
  title : String
  tags : Option (List String)
  servings : JSNum
  time : String
  ingredients : Option (List String)
  steps : List String
  favorite : Bool
  image : Option String
deriving DecidableEq

/-- The ids of a collection, in collection order. -/
def ids (c : List Recipe) : List String := c.map (fun p => p.id)

/-! ## Collection updaters (lines 261-285) -/

/-- The updater passed to `setRecipes` by `saveRecipe` (lines 262-266):
`prev.find` yields a record (an object, always truthy) or `undefined`. -/
def saveRecipe (r : Recipe) (prev : List Recipe) : List Recipe :=
  match prev.find? (fun p => decide (p.id = r.id)) with
  | some _ => prev.map (fun p => if p.id = r.id then r else p)
  | none => r :: prev

/-- The effect of `deleteRecipe` on the collection (lines 277-279);
`confirmed` is the answer of the `confirm` dialog. -/
def deleteRecipe (confirmed : Bool) (id : String) (prev : List Recipe) : List Recipe :=
  if !confirmed then prev else prev.filter (fun r => decide (r.id ≠ id))

/-- The updater of `toggleFavorite` (line 284). -/
def toggleFavorite (id : String) (prev : List Recipe) : List Recipe :=
  prev.map (fun r => if r.id = id then { r with favorite := !r.favorite } else r)

/-- A user action that changes the collection. -/
inductive Action where
  | save (r : Recipe)
  | delete (id : String) (confirmed : Bool)
  | toggle (id : String)

/-- One action applied to the collection. -/
def step (c : List Recipe) : Action → List Recipe
  | .save r => saveRecipe r c
  | .delete id confirmed => deleteRecipe confirmed id c
  | .toggle id => toggleFavorite id c

/-- A sequence of actions applied from left to right. -/
def run (c : List Recipe) (acts : List Action) : List Recipe :=
  acts.foldl step c

/-! ## Strings of the host -/

/-- The functions of the host whose behaviour is not part of the program:
`String.prototype.toLowerCase` and `String.prototype.localeCompare`. -/
structure Host where
  toLowerCase : String → String
  localeCompare : String → String → Int

/-- The characters removed by `String.prototype.trim`: the ECMAScript
`WhiteSpace` and `LineTerminator` code points. -/
def isWhiteSpace (c : Char) : Bool :=
  let n := c.toNat
  n = 0x09 || n = 0x0A || n = 0x0B || n = 0x0C || n = 0x0D || n = 0x20 || n = 0xA0
    || n = 0x1680 || (0x2000 ≤ n && n ≤ 0x200A) || n = 0x2028 || n = 0x2029
    || n = 0x202F || n = 0x205F || n = 0x3000 || n = 0xFEFF

/-- The characters of a string with leading and trailing white space removed. -/
def trimChars (l : List Char) : List Char :=
  ((l.dropWhile isWhiteSpace).reverse.dropWhile isWhiteSpace).reverse

/-- `String.prototype.trim`. -/
def trim (s : String) : String := ⟨trimChars s.data⟩

/-- `Array.prototype.join` on an array of strings. -/
def join (sep : String) : List String → String
  | [] => ""
  | [a] => a
  | a :: b :: t => a ++ sep ++ join sep (b :: t)

/-- `String.prototype.includes`: the needle starts at some position of the
haystack. -/
def includes (hay needle : String) : Bool :=
  hay.data.tails.any (fun t => needle.data.isPrefixOf t)

/-- The UTF-16 code units of a character. -/
def utf16 (c : Char) : List Nat :=
  let n := c.toNat
  if n < 0x10000 then [n]
  else [0xD800 + (n - 0x10000) / 0x400, 0xDC00 + (n - 0x10000) % 0x400]

/-- The UTF-16 code units of a string. -/
def units (s : String) : List Nat := s.data.flatMap utf16

/-- Lexicographic comparison of code unit sequences, as a sign. -/
def unitsCmp : List Nat → List Nat → Int
  | [], [] => 0
  | [], _ :: _ => -1
  | _ :: _, [] => 1
  | a :: l, b :: m => if a < b then -1 else if b < a then 1 else unitsCmp l m

/-- The comparison `Array.prototype.sort` uses when it is given no comparator:
strings are ordered by their UTF-16 code units. -/
def defaultCompare (a b : String) : Int := unitsCmp (units a) (units b)

/-! ## Sorting -/

/-- Insertion of `x` before the first element it does not come after. -/
def insertSorted {α : Type} (cmp : α → α → Int) (x : α) : List α → List α
  | [] => [x]
  | y :: t => if cmp x y ≤ 0 then x :: y :: t else y :: insertSorted cmp x t

/-- `Array.prototype.sort` with the comparator `cmp`. ECMAScript requires the
sort to be stable; for a consistent comparator the result does not depend on
the algorithm, and it is computed here by insertion. -/
def sortWith {α : Type} (cmp : α → α → Int) : List α → List α
  | [] => []
  | x :: t => insertSorted cmp x (sortWith cmp t)

/-! ## Derived views (lines 287-299) -/

/-- `r.tags || []`. -/
def tagsOf (r : Recipe) : List String := r.tags.getD []

/-- `r.ingredients || []`. -/
def ingredientsOf (r : Recipe) : List String := r.ingredients.getD []

/-- `Array.from(new Set(l))`: the distinct elements of `l`, each at its first
occurrence. -/
def setFromList : List String → List String
  | [] => []
  | x :: t => x :: (setFromList t).filter (fun y => decide (y ≠ x))

/-- The list `allTags` (line 287). -/
def allTags (recipes : List Recipe) : List String :=
  sortWith defaultCompare (setFromList (recipes.flatMap tagsOf))

/-- The text searched by the query (line 292), before lower-casing. -/
def hay (r : Recipe) : String :=
  r.title ++ " " ++ join " " (tagsOf r) ++ " " ++ join " " (ingredientsOf r)

/-- The callback of `recipes.filter` (lines 289-298). A string is truthy when
it is not empty. -/
def keep (h : Host) (query tagFilter : String) (r : Recipe) : Bool :=
  let q := h.toLowerCase (trim query)
  if q ≠ "" ∧ includes (h.toLowerCase (hay r)) q = false then false
  else if tagFilter ≠ "" ∧ (r.tags = none ∨ (tagsOf r).contains tagFilter = false) then false
  else true

/-- The comparator of the visible list (line 299). -/
def compareFn (h : Host) (a b : Recipe) : Int :=
  if b.favorite = a.favorite then h.localeCompare a.title b.title
  else if b.favorite then 1 else -1

/-- The visible list `filtered` (lines 289-299). -/
def filtered (h : Host) (recipes : List Recipe) (query tagFilter : String) : List Recipe :=
  sortWith (compareFn h) (recipes.filter (keep h query tagFilter))

/-! ## Numbers: `Number(...)` (line 132) -/

/-- A decimal digit. -/
def isDigit (c : Char) : Bool := 48 ≤ c.toNat && c.toNat ≤ 57

/-- The value of a digit of a numeric literal in base at most sixteen. -/
def hexValue (c : Char) : Option Nat :=
  let n := c.toNat
  if 48 ≤ n ∧ n ≤ 57 then some (n - 48)
  else if 97 ≤ n ∧ n ≤ 102 then some (n - 87)
  else if 65 ≤ n ∧ n ≤ 70 then some (n - 55)
  else none

/-- One more digit of a literal in base `base`. -/
def radixStep (base : Nat) (acc : Option Nat) (c : Char) : Option Nat :=
  match acc, hexValue c with
  | some a, some d => if d < base then some (a * base + d) else none
  | _, _ => none

/-- The value of a non-empty digit sequence in base `base`; `none` when the
sequence is empty or holds a character that is not a digit of the base. -/
def radixValue (base : Nat) (l : List Char) : Option Nat :=
  if l = [] then none else l.foldl (radixStep base) (some 0)

/-- The value of a sequence of decimal digits. -/
def decimalValue (l : List Char) : Nat :=
  l.foldl (fun acc c => acc * 10 + (c.toNat - 48)) 0

/-- The canonical form of the integer mantissa `m` with `k` decimal places. -/
def stripZeros (m : Int) : Nat → JSNum
  | 0 => .dec m 0
  | k + 1 => if m % 10 = 0 then stripZeros (m / 10) k else .dec m (-((k : Int) + 1))

/-- The number of binary digits of `n`, found by halving; `fuel` bounds the
number of halvings. -/
def bits : Nat → Nat → Nat
  | 0, _ => 0
  | fuel + 1, n => if n = 0 then 0 else bits fuel (n / 2) + 1

/-- The integer part of the binary logarithm of a positive number. -/
def ilog2 (n : Nat) : Nat := bits n n - 1

/-- The binary64 number nearest to the positive quotient `num / den`, ties to
the even significand, with sign `neg`: `q * 2 ^ x` for a significand `q` of at
most 53 bits and an exponent `x` of at least `-1074`; an infinity when that is
`2 ^ 1024` or more. The result is written as an exact decimal in canonical
form (an integer as `dec n 0`), and a zero without its sign. -/
def roundBinary64 (neg : Bool) (num den : Nat) : JSNum :=
  let b0 : Int := (ilog2 num : Int) - (ilog2 den : Int)
  let b : Int := if den * 2 ^ b0.toNat ≤ num * 2 ^ (-b0).toNat then b0 else b0 - 1
  let x : Int := max (b - 52) (-1074)
  let n2 := num * 2 ^ (-x).toNat
  let d2 := den * 2 ^ x.toNat
  let q0 := n2 / d2
  let r := n2 % d2
  let q := if d2 < 2 * r ∨ (2 * r = d2 ∧ q0 % 2 = 1) then q0 + 1 else q0
  let sq : Int := if neg then -(q : Int) else (q : Int)
  if 2 ^ 1024 ≤ q * 2 ^ x.toNat then .inf neg
  else if 0 ≤ x then .dec (sq * 2 ^ x.toNat) 0
  else stripZeros (sq * 5 ^ (-x).toNat) (-x).toNat

/-- The number denoted by the decimal `m * 10 ^ e` with sign `neg`: the
nearest binary64 number, as engines compute it (the language allows an
approximation for a literal of more than twenty significant digits). -/
def finite (neg : Bool) (m : Nat) (e : Int) : JSNum :=
  if m = 0 then .dec 0 0
  else if 0 ≤ e then roundBinary64 neg (m * 10 ^ e.toNat) 1
  else roundBinary64 neg m (10 ^ (-e).toNat)

/-- The digits of an exponent, or nothing. -/
def exponentDigits (neg : Bool) (d : List Char) : Option Int :=
  if d ≠ [] ∧ d.all isDigit = true then
    some (if neg then -(decimalValue d : Int) else (decimalValue d : Int))
  else none

/-- The optional `ExponentPart` that ends a decimal literal: the exponent it
denotes (zero when there is none), `none` when the text is not an exponent. -/
def exponentPart : List Char → Option Int
  | [] => some 0
  | c :: t =>
    if c = 'e' ∨ c = 'E' then
      match t with
      | [] => none
      | s :: d =>
        if s = '+' then exponentDigits false d
        else if s = '-' then exponentDigits true d
        else exponentDigits false (s :: d)
    else none

/-- The fraction digits after the integer part, and the text after them. -/
def fractionPart (r : List Char) : List Char × List Char :=
  match r with
  | [] => ([], [])
  | c :: t => if c = '.' then (t.takeWhile isDigit, t.dropWhile isDigit) else ([], c :: t)

/-- `StrUnsignedDecimalLiteral`: `Infinity`, or digits with an optional
fraction and exponent, at least one digit before or after the point. -/
def unsignedDecimal (neg : Bool) (l : List Char) : JSNum :=
  if l = "Infinity".data then .inf neg
  else
    let ip := l.takeWhile isDigit
    let fr := fractionPart (l.dropWhile isDigit)
    if ip = [] ∧ fr.1 = [] then .nan
    else
      match exponentPart fr.2 with
      | none => .nan
      | some x => finite neg (decimalValue (ip ++ fr.1)) (x - (fr.1.length : Int))

/-- Whether the literal starts with `0` and one of the two given letters. -/
def radixMark (lo up : Char) : List Char → Bool
  | a :: b :: _ => a = '0' && (b = lo || b = up)
  | _ => false

/-- A `NonDecimalIntegerLiteral` after its two-character mark. -/
def radixLiteral (base : Nat) (l : List Char) : JSNum :=
  match radixValue base l with
  | some n => finite false n 0
  | none => .nan

/-- `Number(s)` for a string `s` (ECMAScript `StringToNumber`): white space
is stripped, the empty string is zero, and what is not a numeric literal is
`NaN`. -/
def stringToNumber (s : String) : JSNum :=
  let l := trimChars s.data
  match l with
  | [] => .dec 0 0
  | c :: t =>
    if radixMark 'x' 'X' l then radixLiteral 16 (l.drop 2)
    else if radixMark 'o' 'O' l then radixLiteral 8 (l.drop 2)
    else if radixMark 'b' 'B' l then radixLiteral 2 (l.drop 2)
    else if c = '+' then unsignedDecimal false t
    else if c = '-' then unsignedDecimal true t
    else unsignedDecimal false l

/-- Whether a number is falsy: `NaN` and zero are. -/
def JSNum.falsy : JSNum → Bool
  | .nan => true
  | .inf _ => false
  | .dec m _ => m = 0

/-- Whether a number is a positive integer. -/
def JSNum.isPositiveInteger : JSNum → Bool
  | .nan => false
  | .inf _ => false
  | .dec m e => decide (0 < m) && (decide (0 ≤ e) || decide (m % (10 : Int) ^ (-e).toNat = 0))

/-- The characters that occur in numeric literals: digits, the letters of the
hexadecimal digits (`e`, `E`, `b` and `B` among them), the signs, the point,
the radix marks and the letters of `Infinity`. -/
def numericChar (c : Char) : Bool :=
  (hexValue c).isSome || "+-.xXoOInity".data.contains c

/-! ## The edit form (lines 109-140) -/

/-- The `servings` state of the form: the number of the record being edited,
or the text of the input. -/
inductive ServingsField where
  | num (v : JSNum)
  | text (s : String)

/-- The state of the form. -/
structure FormState where
  title : String
  tags : String
  servings : ServingsField
  time : String
  ingredients : String
  steps : String
  image : Option String

/-- The initial state of the form (lines 110-116). -/
def initForm (initial : Option Recipe) : FormState :=
  match initial with
  | none =>
    { title := "", tags := "", servings := .text "", time := "", ingredients := "",
      steps := "", image := none }
  | some r =>
    { title := r.title
      tags := join ", " (tagsOf r)
      servings := if r.servings.falsy then .text "" else .num r.servings
      time := r.time
      ingredients := join "\n" (ingredientsOf r)
      steps := join "\n" r.steps
      image := match r.image with
        | some i => if i ≠ "" then some i else none
        | none => none }

/-- `Number(servings)`. -/
def toNumber : ServingsField → JSNum
  | .num v => v
  | .text s => stringToNumber s

/-- `Number(servings) || 1`. -/
def servingsOf (f : ServingsField) : JSNum :=
  if (toNumber f).falsy then .dec 1 0 else toNumber f

/-- The pieces of `String.prototype.split` for a one-character separator. -/
def splitOn (sep : Char) : List Char → List (List Char)
  | [] => [[]]
  | c :: t =>
    if c = sep then [] :: splitOn sep t
    else
      match splitOn sep t with
      | [] => [[c]]
      | p :: ps => (c :: p) :: ps

/-- The expression `s.split(sep).map(s => s.trim()).filter(Boolean)`. -/
def entries (sep : Char) (s : String) : List String :=
  ((splitOn sep s.data).map (fun p => trim ⟨p⟩)).filter (fun x => decide (x ≠ ""))

/-- The record built by `submit` (lines 128-138); `uid` is the result of the
call `uid()`. -/
def submit (initial : Option Recipe) (uid : String) (f : FormState) : Recipe :=
  { id := match initial with
      | some r => if r.id ≠ "" then r.id else uid
      | none => uid
    title := if trim f.title ≠ "" then trim f.title else "Untitled"
    tags := some (entries ',' f.tags)
    servings := servingsOf f.servings
    time := f.time
    ingredients := some (entries '\n' f.ingredients)
    steps := entries '\n' f.steps
    favorite := match initial with
      | some r => r.favorite
      | none => false
    image := f.image }

/-! ## The initial state (lines 236-244) -/

/-- A value of JSON. The members of an object are kept in the order of the
text; a later member of the same name overrides an earlier one. -/
inductive JVal where
  | null
  | bool (b : Bool)
  | num (n : JSNum)
  | str (s : String)
  | arr (items : List JVal)
  | obj (members : List (String × JVal))

/-- The white space of JSON: space, tab, line feed and carriage return. -/
def isJsonSpace (c : Char) : Bool :=
  c.toNat = 0x20 || c.toNat = 0x09 || c.toNat = 0x0A || c.toNat = 0x0D

/-- The text after leading JSON white space. -/
def skipSpace (l : List Char) : List Char := l.dropWhile isJsonSpace

/-- The text after the keyword `word`, when the text starts with it. -/
def dropWord (word : String) (l : List Char) : Option (List Char) :=
  if word.data.isPrefixOf l then some (l.drop word.data.length) else none

/-- The value of four hexadecimal digits. -/
def hex4 (a b c d : Char) : Option Nat :=
  match hexValue a, hexValue b, hexValue c, hexValue d with
  | some x, some y, some z, some w => some (((x * 16 + y) * 16 + z) * 16 + w)
  | _, _, _, _ => none

/-- The low surrogate written as a `\u` escape at the start of the text, and
the text after it. -/
def lowSurrogate : List Char → Option (Nat × List Char)
  | s1 :: s2 :: a :: b :: c :: d :: w =>
    if s1 = '\\' ∧ s2 = 'u' then
      match hex4 a b c d with
      | some lo => if 0xDC00 ≤ lo ∧ lo ≤ 0xDFFF then some (lo, w) else none
      | none => none
    else none
  | _ => none

/-- The character of a code unit that stands alone. A Lean character is a
Unicode scalar value, so a surrogate that is not half of a pair is read as
U+FFFD. -/
def unitChar (n : Nat) : Char :=
  if 0xD800 ≤ n ∧ n ≤ 0xDFFF then Char.ofNat 0xFFFD else Char.ofNat n

/-- The characters of a JSON string after its opening quote, up to the closing
quote, and the text after it. -/
def parseChars : Nat → List Char → Option (List Char × List Char)
  | 0, _ => none
  | fuel + 1, l =>
    match l with
    | [] => none
    | c :: t =>
      if c = '"' then some ([], t)
      else if c.toNat < 0x20 then none
      else if c = '\\' then
        match t with
        | [] => none
        | e :: u =>
          let lit (x : Char) : Option (List Char × List Char) :=
            (parseChars fuel u).map (fun p => (x :: p.1, p.2))
          if e = '"' then lit '"'
          else if e = '\\' then lit '\\'
          else if e = '/' then lit '/'
          else if e = 'b' then lit (Char.ofNat 8)
          else if e = 'f' then lit (Char.ofNat 12)
          else if e = 'n' then lit (Char.ofNat 10)
          else if e = 'r' then lit (Char.ofNat 13)
          else if e = 't' then lit (Char.ofNat 9)
          else if e = 'u' then
            match u with
            | a :: b :: c1 :: d :: v =>
              match hex4 a b c1 d with
              | none => none
              | some hi =>
                match (if 0xD800 ≤ hi ∧ hi < 0xDC00 then lowSurrogate v else none) with
                | some (lo, w) =>
                  (parseChars fuel w).map (fun p =>
                    (Char.ofNat (0x10000 + (hi - 0xD800) * 0x400 + (lo - 0xDC00)) :: p.1, p.2))
                | none => (parseChars fuel v).map (fun p => (unitChar hi :: p.1, p.2))
            | _ => none
          else none
      else (parseChars fuel t).map (fun p => (c :: p.1, p.2))

/-- The number at the start of the text, by the grammar of JSON: an optional
minus, an integer part without a leading zero, an optional fraction with at
least one digit, an optional exponent. -/
def parseNumber (l : List Char) : Option (JSNum × List Char) :=
  let neg := l.head? = some '-'
  let body := if neg then l.drop 1 else l
  let ip := body.takeWhile isDigit
  let r1 := body.dropWhile isDigit
  if ip = [] ∨ (ip.head? = some '0' ∧ ip.length ≠ 1) then none
  else
    let hasFrac := r1.head? = some '.'
    let fp := if hasFrac then (r1.drop 1).takeWhile isDigit else []
    let r2 := if hasFrac then (r1.drop 1).dropWhile isDigit else r1
    if hasFrac ∧ fp = [] then none
    else
      let mant := decimalValue (ip ++ fp)
      if r2.head? = some 'e' ∨ r2.head? = some 'E' then
        let r3 := r2.drop 1
        let eneg := r3.head? = some '-'
        let r4 := if r3.head? = some '-' ∨ r3.head? = some '+' then r3.drop 1 else r3
        let ed := r4.takeWhile isDigit
        if ed = [] then none
        else
          let x : Int := if eneg then -(decimalValue ed : Int) else (decimalValue ed : Int)
          some (finite neg mant (x - (fp.length : Int)), r4.dropWhile isDigit)
      else some (finite neg mant (-(fp.length : Int)), r2)

mutual

/-- The JSON value at the start of the text and the text after it. -/
def parseValue : Nat → List Char → Option (JVal × List Char)
  | 0, _ => none
  | fuel + 1, l =>
    match skipSpace l with
    | [] => none
    | c :: t =>
      if c = 'n' then (dropWord "null" (c :: t)).map (fun r => (JVal.null, r))
      else if c = 't' then (dropWord "true" (c :: t)).map (fun r => (JVal.bool true, r))
      else if c = 'f' then (dropWord "false" (c :: t)).map (fun r => (JVal.bool false, r))
      else if c = '"' then
        (parseChars (t.length + 1) t).map (fun p => (JVal.str ⟨p.1⟩, p.2))
      else if c = '[' then
        match skipSpace t with
        | [] => none
        | d :: u =>
          if d = ']' then some (JVal.arr [], u)
          else (parseElements fuel (d :: u)).map (fun p => (JVal.arr p.1, p.2))
      else if c = '{' then
        match skipSpace t with
        | [] => none
        | d :: u =>
          if d = '}' then some (JVal.obj [], u)
          else (parseMembers fuel (d :: u)).map (fun p => (JVal.obj p.1, p.2))
      else (parseNumber (c :: t)).map (fun p => (JVal.num p.1, p.2))

/-- The elements of an array up to its closing bracket. -/
def parseElements : Nat → List Char → Option (List JVal × List Char)
  | 0, _ => none
  | fuel + 1, l =>
    match parseValue fuel l with
    | none => none
    | some (v, r) =>
      match skipSpace r with
      | [] => none
      | c :: t =>
        if c = ',' then (parseElements fuel t).map (fun p => (v :: p.1, p.2))
        else if c = ']' then some ([v], t)
        else none

/-- The members of an object up to its closing brace. -/
def parseMembers : Nat → List Char → Option (List (String × JVal) × List Char)
  | 0, _ => none
  | fuel + 1, l =>
    match skipSpace l with
    | [] => none
    | q :: t =>
      if q = '"' then
        match parseChars (t.length + 1) t with
        | none => none
        | some (k, r) =>
          match skipSpace r with
          | [] => none
          | c :: u =>
            if c = ':' then
              match parseValue fuel u with
              | none => none
              | some (v, w) =>
                match skipSpace w with
                | [] => none
                | d :: x =>
                  if d = ',' then
                    (parseMembers fuel x).map (fun p => ((⟨k⟩, v) :: p.1, p.2))
                  else if d = '}' then some ([(⟨k⟩, v)], x)
                  else none
            else none
      else none

end

/-- `JSON.parse` on a text; `none` when it throws. The fuel is twice the length
of the text, more than the nesting of its values needs. -/
def jsonParse (s : String) : Option JVal :=
  match parseValue (2 * s.data.length + 2) s.data with
  | none => none
  | some (v, r) => if skipSpace r = [] then some v else none

/-- What reading the slot yields: `localStorage.getItem` throws, returns
`null`, or returns the stored text. -/
inductive SlotRead where
  | throws
  | absent
  | value (raw : String)

/-- The initial value of `recipes` (lines 236-244), for the host's
`JSON.parse` given as `parse` and the array `sampleRecipes` given as `seed`. -/
def initialRecipes (parse : String → Option JVal) (seed : JVal) : SlotRead → JVal
  | .throws => seed
  | .absent => seed
  | .value raw =>
    if raw ≠ "" then
      match parse raw with
      | some v => v
      | none => seed
    else seed

/-- The member `key` of an object, the last one of that name. -/
def member (key : String) (members : List (String × JVal)) : Option JVal :=
  (members.reverse.find? (fun p => decide (p.1 = key))).map (fun p => p.2)

/-- An array of strings. -/
def asStrings : List JVal → Option (List String)
  | [] => some []
  | .str s :: t => (asStrings t).map (fun l => s :: l)
  | _ :: _ => none

/-- An optional array of strings: the member may be missing. -/
def asOptStrings : Option JVal → Option (Option (List String))
  | none => some none
  | some (.arr items) => (asStrings items).map some
  | some _ => none

/-- The recipe a JSON value stands for, when it has the shape of the data
model: an object with the members `id`, `title`, `servings`, `time`, `steps`,
`favorite` of the right kinds, `tags` and `ingredients` arrays of strings or
missing, `image` a string, `null` or missing. -/
def asRecipe : JVal → Option Recipe
  | .obj ms =>
    match member "id" ms, member "title" ms, asOptStrings (member "tags" ms),
      member "servings" ms, member "time" ms, asOptStrings (member "ingredients" ms),
      member "steps" ms, member "favorite" ms with
    | some (.str id), some (.str title), some tags, some (.num servings), some (.str time),
      some ingredients, some (.arr steps), some (.bool favorite) =>
      match asStrings steps, member "image" ms with
      | some st, some (.str img) =>
        some { id := id, title := title, tags := tags, servings := servings, time := time,
               ingredients := ingredients, steps := st, favorite := favorite,
               image := some img }
      | some st, some .null =>
        some { id := id, title := title, tags := tags, servings := servings, time := time,
               ingredients := ingredients, steps := st, favorite := favorite, image := none }
      | some st, none =>
        some { id := id, title := title, tags := tags, servings := servings, time := time,
               ingredients := ingredients, steps := st, favorite := favorite, image := none }
      | _, _ => none
    | _, _, _, _, _, _, _, _ => none
  | _ => none

/-- The recipes a list of JSON values stands for. -/
def asRecipes : List JVal → Option (List Recipe)
  | [] => some []
  | v :: t =>
    match asRecipe v, asRecipes t with
    | some r, some rs => some (r :: rs)
    | _, _ => none

/-- The collection a JSON value stands for: an array of recipes. -/
def asCollection : JVal → Option (List Recipe)
  | .arr items => asRecipes items
  | _ => none

/-- The JSON value of a recipe. -/
def ofRecipe (r : Recipe) : JVal :=
  .obj
    ([("id", .str r.id), ("title", .str r.title)]
      ++ (match r.tags with
          | some ts => [("tags", JVal.arr (ts.map JVal.str))]
          | none => [])
      ++ [("servings", .num r.servings), ("time", .str r.time)]
      ++ (match r.ingredients with
          | some l => [("ingredients", JVal.arr (l.map JVal.str))]
          | none => [])
      ++ [("steps", .arr (r.steps.map JVal.str)), ("favorite", .bool r.favorite),
          ("image", match r.image with
            | some i => .str i
            | none => .null)])

/-- The JSON value of a collection. -/
def ofCollection (c : List Recipe) : JVal := .arr (c.map ofRecipe)

/-! ## Examples -/

/-- The array `sampleRecipes` (lines 10-45); the two ids are the results of
the two calls of `uid()`. -/
def sampleRecipes (id1 id2 : String) : List Recipe :=
  [ { id := id1
      title := "Classic Pancakes"
      tags := some ["breakfast", "easy"]
      servings := .dec 4 0
      time := "20 min"
      ingredients := some
        [ "1 1/2 cups all-purpose flour", "3 1/2 tsp baking powder", "1 tsp salt",
          "1 tbsp sugar", "1 1/4 cups milk", "1 egg", "3 tbsp melted butter" ]
      steps :=
        [ "Whisk dry ingredients.",
          "Add milk, egg and melted butter — stir until just combined.",
          "Heat a skillet and cook 2-3 minutes per side until golden." ]
      favorite := false
      image := none },
    { id := id2
      title := "Simple Tomato Pasta"
      tags := some ["dinner", "vegetarian"]
      servings := .dec 2 0
      time := "25 min"
      ingredients := some
        [ "200g pasta", "2 cups chopped tomatoes", "2 cloves garlic", "olive oil",
          "salt & pepper", "basil" ]
      steps :=
        [ "Cook pasta according to package.",
          "Sauté garlic in olive oil, add tomatoes and simmer.",
          "Toss pasta with sauce and garnish with basil." ]
      favorite := true
      image := none } ]

/-- A string with its letters `A` to `Z` in lower case. -/
def asciiLower (s : String) : String := ⟨s.data.map Char.toLower⟩

/-- A host to run the examples on: ASCII case mapping, and collation by code
units. -/
def asciiHost : Host :=
  { toLowerCase := asciiLower
    localeCompare := defaultCompare }

/-- Alphabetical order, as the specification words the order of `allTags`:
strings are compared letter by letter, and an upper-case letter counts as its
lower-case one. -/
def alphabeticalCompare (a b : String) : Int :=
  defaultCompare (asciiLower a) (asciiLower b)

/-- A record as the form builds one, with the given tags. -/
def taggedRecipe (id : String) (tags : List String) : Recipe :=
  { id := id, title := "Soup", tags := some tags, servings := .dec 1 0, time := "",
    ingredients := some [], steps := [], favorite := false, image := none }

/-- A record as the form builds one, with the given id and title. -/
def exampleRecipe (id title : String) : Recipe :=
  { id := id, title := title, tags := some ["easy"], servings := .dec 1 0, time := "",
    ingredients := some [], steps := [], favorite := false, image := none }

/-- The form for a new recipe with the given text in the servings input. -/
def exampleForm (servings : String) : FormState :=
  { initForm none with servings := .text servings }

/-! ## Lemmas on the updaters -/

theorem find_none_iff (r : Recipe) (prev : List Recipe) :
    prev.find? (fun p => decide (p.id = r.id)) = none ↔ r.id ∉ ids prev := by
  rw [List.find?_eq_none]
  constructor
  · intro h hm
    obtain ⟨p, hp, hpid⟩ := List.mem_map.1 hm
    exact h p hp (by simpa using hpid)
  · intro h p hp hpid
    exact h (List.mem_map.2 ⟨p, hp, by simpa using hpid⟩)

theorem saveRecipe_absent (r : Recipe) (prev : List Recipe) (h : r.id ∉ ids prev) :
    saveRecipe r prev = r :: prev := by
  unfold saveRecipe
  rw [(find_none_iff r prev).2 h]

theorem saveRecipe_present (r : Recipe) (prev : List Recipe) (h : r.id ∈ ids prev) :
    saveRecipe r prev = prev.map (fun p => if p.id = r.id then r else p) := by
  unfold saveRecipe
  cases hf : prev.find? (fun p => decide (p.id = r.id)) with
  | none => exact absurd h ((find_none_iff r prev).1 hf)
  | some _ => rfl

theorem map_replace_of_not_mem (r : Recipe) (l : List Recipe) (h : r.id ∉ ids l) :
    l.map (fun p => if p.id = r.id then r else p) = l := by
  induction l with
  | nil => rfl
  | cons a t ih =>
    simp only [ids, List.map_cons, List.mem_cons, not_or] at h
    have hne : a.id ≠ r.id := fun e => h.1 e.symm
    simp only [List.map_cons, if_neg hne]
    rw [ih (by simpa [ids] using h.2)]

theorem map_replace_eq_set (r : Recipe) :
    ∀ (l : List Recipe), (ids l).Nodup → ∀ (i : Nat) (hi : i < l.length),
      (l.get ⟨i, hi⟩).id = r.id →
      l.map (fun p => if p.id = r.id then r else p) = l.set i r := by
  intro l
  induction l with
  | nil => intro _ i hi; exact absurd hi (Nat.not_lt_zero _)
  | cons a t ih =>
    intro hnd i hi hid
    have hnd' : a.id ∉ ids t ∧ (ids t).Nodup := by
      simpa [ids] using hnd
    cases i with
    | zero =>
      have ha : a.id = r.id := by simpa using hid
      have hr : r.id ∉ ids t := ha ▸ hnd'.1
      simp only [List.map_cons, if_pos ha, List.set_cons_zero]
      rw [map_replace_of_not_mem r t hr]
    | succ j =>
      have hj : j < t.length := by simpa using hi
      have hid' : (t.get ⟨j, hj⟩).id = r.id := by simpa using hid
      have hmem : r.id ∈ ids t := by
        rw [← hid']
        exact List.mem_map_of_mem _ (List.get_mem t j hj)
      have hne : a.id ≠ r.id := fun e => hnd'.1 (e ▸ hmem)
      simp only [List.map_cons, if_neg hne, List.set_cons_succ]
      rw [ih hnd'.2 j hj hid']

theorem ids_map_replace (r : Recipe) (l : List Recipe) :
    ids (l.map (fun p => if p.id = r.id then r else p)) = ids l := by
  induction l with
  | nil => rfl
  | cons a t ih =>
    simp only [ids, List.map_cons] at ih ⊢
    rw [ih]
    by_cases h : a.id = r.id
    · simp [h]
    · simp [h]

theorem ids_toggleFavorite (id : String) (l : List Recipe) :
    ids (toggleFavorite id l) = ids l := by
  induction l with
  | nil => rfl
  | cons a t ih =>
    simp only [ids, toggleFavorite, List.map_cons] at ih ⊢
    rw [ih]
    by_cases h : a.id = id
    · simp [h]
    · simp [h]

theorem ids_deleteRecipe_sublist (b : Bool) (id : String) (l : List Recipe) :
    (ids (deleteRecipe b id l)).Sublist (ids l) := by
  unfold deleteRecipe
  split
  · exact List.Sublist.refl _
  · exact List.Sublist.map _ (List.filter_sublist l)

theorem nodup_saveRecipe (r : Recipe) (c : List Recipe) (h : (ids c).Nodup) :
    (ids (saveRecipe r c)).Nodup := by
  by_cases hm : r.id ∈ ids c
  · rw [saveRecipe_present r c hm, ids_map_replace]
    exact h
  · rw [saveRecipe_absent r c hm]
    simpa [ids] using And.intro (by simpa [ids] using hm) h

theorem mem_ids_saveRecipe (r : Recipe) (c : List Recipe) : r.id ∈ ids (saveRecipe r c) := by
  by_cases hm : r.id ∈ ids c
  · rw [saveRecipe_present r c hm, ids_map_replace]
    exact hm
  · rw [saveRecipe_absent r c hm]
    simp [ids]

theorem nodup_step (c : List Recipe) (a : Action) (h : (ids c).Nodup) :
    (ids (step c a)).Nodup := by
  cases a with
  | save r => exact nodup_saveRecipe r c h
  | delete id b => exact List.Nodup.sublist (ids_deleteRecipe_sublist b id c) h
  | toggle id =>
    show (ids (toggleFavorite id c)).Nodup
    rw [ids_toggleFavorite]
    exact h

theorem nodup_run (acts : List Action) : ∀ (c : List Recipe), (ids c).Nodup →
    (ids (run c acts)).Nodup := by
  induction acts with
  | nil => intro c h; exact h
  | cons a t ih => intro c h; exact ih (step c a) (nodup_step c a h)

/-! ## Lemmas on sorting -/

theorem sortWith_eq_insertionSort {α : Type} (cmp : α → α → Int) (l : List α) :
    sortWith cmp l = List.insertionSort (fun a b => cmp a b ≤ 0) l := by
  have hins : ∀ (x : α) (t : List α),
      insertSorted cmp x t = List.orderedInsert (fun a b => cmp a b ≤ 0) x t := by
    intro x t
    induction t with
    | nil => rfl
    | cons y t ih =>
      simp only [insertSorted, List.orderedInsert]
      rw [ih]
  induction l with
  | nil => rfl
  | cons x t ih =>
    simp only [sortWith, List.insertionSort]
    rw [hins, ih]

theorem sortWith_perm {α : Type} (cmp : α → α → Int) (l : List α) :
    (sortWith cmp l).Perm l := by
  rw [sortWith_eq_insertionSort]
  exact List.perm_insertionSort _ l

theorem sortWith_sorted {α : Type} (cmp : α → α → Int)
    (htot : ∀ a b, cmp a b ≤ 0 ∨ cmp b a ≤ 0)
    (htrans : ∀ a b c, cmp a b ≤ 0 → cmp b c ≤ 0 → cmp a c ≤ 0) (l : List α) :
    (sortWith cmp l).Pairwise (fun a b => cmp a b ≤ 0) := by
  rw [sortWith_eq_insertionSort]
  haveI : IsTotal α (fun a b => cmp a b ≤ 0) := ⟨htot⟩
  haveI : IsTrans α (fun a b => cmp a b ≤ 0) := ⟨htrans⟩
  exact List.sorted_insertionSort _ l

theorem sortWith_stable {α : Type} (cmp : α → α → Int) (l : List α)
    (a b : α) (hab : cmp a b ≤ 0) (hsub : [a, b].Sublist l) :
    [a, b].Sublist (sortWith cmp l) := by
  rw [sortWith_eq_insertionSort]
  exact List.pair_sublist_insertionSort hab hsub

/-! ## Lemmas on the code unit order -/

theorem unitsCmp_total : ∀ (l m : List Nat), unitsCmp l m ≤ 0 ∨ unitsCmp m l ≤ 0 := by
  intro l
  induction l with
  | nil => intro m; cases m <;> simp [unitsCmp]
  | cons a l ih =>
    intro m
    cases m with
    | nil => simp [unitsCmp]
    | cons b m =>
      simp only [unitsCmp]
      rcases Nat.lt_trichotomy a b with h | h | h
      · left; simp [h]
      · subst h; simpa using ih m
      · right; simp [h]

theorem unitsCmp_trans : ∀ (l m n : List Nat),
    unitsCmp l m ≤ 0 → unitsCmp m n ≤ 0 → unitsCmp l n ≤ 0 := by
  intro l
  induction l with
  | nil => intro m n _ _; cases n <;> simp [unitsCmp]
  | cons a l ih =>
    intro m n h1 h2
    cases m with
    | nil => simp [unitsCmp] at h1
    | cons b m =>
      cases n with
      | nil => simp [unitsCmp] at h2
      | cons c n =>
        simp only [unitsCmp] at h1 h2 ⊢
        split_ifs at h1 h2 ⊢ <;> first
          | omega
          | (have hb : a = b := by omega
             have hc : b = c := by omega
             exact ih m n h1 h2)

theorem unitsCmp_antisymm : ∀ (l m : List Nat),
    unitsCmp l m ≤ 0 → unitsCmp m l ≤ 0 → l = m := by
  intro l
  induction l with
  | nil => intro m h1 h2; cases m with
    | nil => rfl
    | cons b m => simp [unitsCmp] at h2
  | cons a l ih =>
    intro m h1 h2
    cases m with
    | nil => simp [unitsCmp] at h1
    | cons b m =>
      simp only [unitsCmp] at h1 h2
      split_ifs at h1 h2 <;> first
        | omega
        | (have hb : a = b := by omega
           rw [hb, ih m h1 h2])

theorem utf16_ne_nil (c : Char) : utf16 c ≠ [] := by
  unfold utf16
  simp only
  split <;> simp

theorem utf16_append_inj : ∀ (c d : Char) (l m : List Nat),
    utf16 c ++ l = utf16 d ++ m → c = d ∧ l = m := by
  intro c d l m h
  have hc := c.valid
  have hd := d.valid
  have hcn : c.val.toNat = c.toNat := rfl
  have hdn : d.val.toNat = d.toNat := rfl
  simp only [UInt32.isValidChar, Nat.isValidChar, hcn, hdn] at hc hd
  have key : c.toNat = d.toNat ∧ l = m := by
    unfold utf16 at h
    simp only at h
    split_ifs at h with h1 h2 h2
    · simp only [List.singleton_append, List.cons.injEq] at h
      exact h
    · simp only [List.singleton_append, List.cons_append, List.nil_append,
        List.cons.injEq] at h
      omega
    · simp only [List.singleton_append, List.cons_append, List.nil_append,
        List.cons.injEq] at h
      omega
    · simp only [List.cons_append, List.nil_append, List.cons.injEq] at h
      refine ⟨by omega, h.2.2⟩
  refine ⟨?_, key.2⟩
  apply Char.ext
  apply UInt32.ext
  exact key.1

theorem units_injective : ∀ (a b : List Char),
    a.flatMap utf16 = b.flatMap utf16 → a = b := by
  intro a
  induction a with
  | nil =>
    intro b h
    cases b with
    | nil => rfl
    | cons d m =>
      simp only [List.flatMap_nil, List.flatMap_cons] at h
      have := utf16_ne_nil d
      cases hd : utf16 d with
      | nil => exact absurd hd this
      | cons x t => rw [hd] at h; simp at h
  | cons c l ih =>
    intro b h
    cases b with
    | nil =>
      simp only [List.flatMap_nil, List.flatMap_cons] at h
      have := utf16_ne_nil c
      cases hc : utf16 c with
      | nil => exact absurd hc this
      | cons x t => rw [hc] at h; simp at h
    | cons d m =>
      simp only [List.flatMap_cons] at h
      obtain ⟨h1, h2⟩ := utf16_append_inj c d _ _ h
      rw [h1, ih m h2]

theorem defaultCompare_total (a b : String) :
    defaultCompare a b ≤ 0 ∨ defaultCompare b a ≤ 0 :=
  unitsCmp_total _ _

theorem defaultCompare_trans (a b c : String) :
    defaultCompare a b ≤ 0 → defaultCompare b c ≤ 0 → defaultCompare a c ≤ 0 :=
  unitsCmp_trans _ _ _

theorem defaultCompare_antisymm (a b : String)
    (h1 : defaultCompare a b ≤ 0) (h2 : defaultCompare b a ≤ 0) : a = b := by
  exact String.ext (units_injective a.data b.data (unitsCmp_antisymm _ _ h1 h2))

/-! ## Lemmas on `setFromList` -/

theorem mem_setFromList (t : String) : ∀ (l : List String), t ∈ setFromList l ↔ t ∈ l := by
  intro l
  induction l with
  | nil => simp [setFromList]
  | cons x l ih =>
    simp only [setFromList, List.mem_cons, List.mem_filter, ih, decide_eq_true_eq]
    by_cases h : t = x
    · simp [h]
    · simp [h]

theorem nodup_setFromList : ∀ (l : List String), (setFromList l).Nodup := by
  intro l
  induction l with
  | nil => simp [setFromList]
  | cons x l ih =>
    simp only [setFromList, List.nodup_cons, List.mem_filter, decide_eq_true_eq]
    exact ⟨fun h => h.2 rfl, List.Nodup.filter _ ih⟩

/-! ## Lemmas on the filter -/

theorem includes_iff (a b : String) :
    includes a b = true ↔ ∃ pre post : List Char, a.data = pre ++ b.data ++ post := by
  unfold includes
  rw [List.any_eq_true]
  constructor
  · rintro ⟨t, ht, hp⟩
    obtain ⟨pre, hpre⟩ := (List.mem_tails t a.data).1 ht
    obtain ⟨post, hpost⟩ := List.isPrefixOf_iff_prefix.1 hp
    exact ⟨pre, post, by rw [← hpre, ← hpost, List.append_assoc]⟩
  · rintro ⟨pre, post, h⟩
    refine ⟨b.data ++ post, (List.mem_tails _ _).2 ⟨pre, ?_⟩, ?_⟩
    · rw [h, List.append_assoc]
    · exact List.isPrefixOf_iff_prefix.2 ⟨post, rfl⟩

theorem includes_empty (a : String) : includes a "" = true :=
  (includes_iff a "").2 ⟨[], a.data, rfl⟩

theorem trimChars_of_all_white (l : List Char) (h : ∀ c ∈ l, isWhiteSpace c = true) :
    trimChars l = [] := by
  unfold trimChars
  have : l.dropWhile isWhiteSpace = [] := List.dropWhile_eq_nil_iff.2 h
  rw [this]
  rfl

theorem trim_of_all_white (s : String) (h : ∀ c ∈ s.data, isWhiteSpace c = true) :
    trim s = "" := by
  unfold trim
  rw [trimChars_of_all_white s.data h]

theorem keep_no_tagFilter (h : Host) (query : String) (r : Recipe) :
    keep h query "" r = true ↔
      (h.toLowerCase (trim query) = "" ∨
        includes (h.toLowerCase (hay r)) (h.toLowerCase (trim query)) = true) := by
  unfold keep
  by_cases hq : h.toLowerCase (trim query) = ""
  · simp [hq]
  · cases hi : includes (h.toLowerCase (hay r)) (h.toLowerCase (trim query)) <;> simp [hq, hi]

theorem keep_no_query (h : Host) (hlow : h.toLowerCase "" = "") (tagFilter : String)
    (r : Recipe) :
    keep h "" tagFilter r = true ↔ (tagFilter = "" ∨ tagFilter ∈ tagsOf r) := by
  have ht : trim "" = "" := rfl
  unfold keep
  simp only [ht, hlow, ne_eq, not_true_eq_false, false_and, if_false]
  by_cases hf : tagFilter = ""
  · simp [hf]
  · cases hr : r.tags with
    | none => simp [hf, tagsOf, hr]
    | some ts =>
      by_cases hm : tagFilter ∈ ts
      · simp [hf, tagsOf, hr, hm]
      · simp [hf, tagsOf, hr, hm]

/-! ## Lemmas on the comparator -/

theorem compareFn_total (h : Host)
    (htot : ∀ s t, h.localeCompare s t ≤ 0 ∨ h.localeCompare t s ≤ 0) (a b : Recipe) :
    compareFn h a b ≤ 0 ∨ compareFn h b a ≤ 0 := by
  unfold compareFn
  cases ha : a.favorite <;> cases hb : b.favorite <;> simp [htot]

theorem compareFn_trans (h : Host)
    (htrans : ∀ s t u, h.localeCompare s t ≤ 0 → h.localeCompare t u ≤ 0 →
      h.localeCompare s u ≤ 0) (a b c : Recipe) :
    compareFn h a b ≤ 0 → compareFn h b c ≤ 0 → compareFn h a c ≤ 0 := by
  unfold compareFn
  cases ha : a.favorite <;> cases hb : b.favorite <;> cases hc : c.favorite <;>
    simp <;> exact htrans _ _ _

theorem compareFn_le_iff (h : Host) (a b : Recipe) :
    compareFn h a b ≤ 0 ↔
      (a.favorite = b.favorite ∧ h.localeCompare a.title b.title ≤ 0) ∨
      (a.favorite = true ∧ b.favorite = false) := by
  unfold compareFn
  cases ha : a.favorite <;> cases hb : b.favorite <;> simp

theorem unitsCmp_swap : ∀ (l m : List Nat), 0 ≤ unitsCmp l m → unitsCmp m l ≤ 0 := by
  intro l
  induction l with
  | nil => intro m h; cases m with
    | nil => simp [unitsCmp]
    | cons b m => simp [unitsCmp] at h
  | cons a l ih =>
    intro m h
    cases m with
    | nil => simp [unitsCmp]
    | cons b m =>
      simp only [unitsCmp] at h ⊢
      split_ifs at h ⊢ <;> first
        | omega
        | exact ih m h

theorem defaultCompare_lt_of_ne (a b : String) (hne : a ≠ b) (hle : defaultCompare a b ≤ 0) :
    defaultCompare a b < 0 := by
  rcases lt_or_eq_of_le hle with h | h
  · exact h
  · exact absurd (defaultCompare_antisymm a b hle (unitsCmp_swap _ _ (le_of_eq h.symm))) hne

/-! ## Lemmas on `Number` -/

theorem mem_dropWhile_of_false {p : Char → Bool} {c : Char} :
    ∀ {l : List Char}, c ∈ l → p c = false → c ∈ l.dropWhile p := by
  intro l
  induction l with
  | nil => intro h _; exact h
  | cons a t ih =>
    intro h hp
    rw [List.dropWhile_cons]
    split
    · rename_i ha
      rcases List.mem_cons.1 h with e | e
      · rw [e, ha] at hp
        exact absurd hp (by decide)
      · exact ih e hp
    · exact h

theorem mem_trimChars {c : Char} {l : List Char} (h : c ∈ l) (hw : isWhiteSpace c = false) :
    c ∈ trimChars l := by
  unfold trimChars
  rw [List.mem_reverse]
  apply mem_dropWhile_of_false _ hw
  rw [List.mem_reverse]
  exact mem_dropWhile_of_false h hw

theorem hexValue_none_of_not_numeric {c : Char} (h : numericChar c = false) :
    hexValue c = none := by
  unfold numericChar at h
  rw [Bool.or_eq_false_iff] at h
  cases hv : hexValue c with
  | none => rfl
  | some v => rw [hv] at h; simp at h

theorem isDigit_false_of_not_numeric {c : Char} (h : numericChar c = false) :
    isDigit c = false := by
  have hv := hexValue_none_of_not_numeric h
  unfold hexValue at hv
  simp only at hv
  unfold isDigit
  split_ifs at hv with h1
  simp only [not_and, not_le] at h1
  cases hd : (decide (48 ≤ c.toNat) && decide (c.toNat ≤ 57)) with
  | false => rfl
  | true =>
    simp only [Bool.and_eq_true, decide_eq_true_eq] at hd
    omega

theorem ne_of_not_numeric {c : Char} (h : numericChar c = false) (x : Char)
    (hx : numericChar x = true) : c ≠ x := by
  intro e
  rw [e, hx] at h
  exact absurd h (by decide)

theorem foldl_radixStep_none (base : Nat) (l : List Char) :
    l.foldl (radixStep base) none = none := by
  induction l with
  | nil => rfl
  | cons a t ih => simpa [radixStep] using ih

theorem radixValue_none_of_mem (base : Nat) {c : Char} (hc : hexValue c = none) :
    ∀ {l : List Char}, c ∈ l → radixValue base l = none := by
  intro l hl
  unfold radixValue
  split
  · rfl
  · have key : ∀ (l : List Char) (acc : Option Nat), c ∈ l →
        l.foldl (radixStep base) acc = none := by
      intro l
      induction l with
      | nil => intro _ h; exact absurd h (List.not_mem_nil _)
      | cons a t ih =>
        intro acc h
        rw [List.foldl_cons]
        rcases List.mem_cons.1 h with e | e
        · have : radixStep base acc a = none := by
            rw [← e]
            unfold radixStep
            rw [hc]
            cases acc <;> rfl
          rw [this]
          exact foldl_radixStep_none base t
        · exact ih _ e
    exact key l _ hl

theorem exponentDigits_none_of_mem (neg : Bool) {c : Char} (hc : numericChar c = false)
    {d : List Char} (hd : c ∈ d) : exponentDigits neg d = none := by
  unfold exponentDigits
  have : d.all isDigit = false := by
    rw [List.all_eq_false]
    exact ⟨c, hd, by simp [isDigit_false_of_not_numeric hc]⟩
  simp [this]

theorem mem_tail_of_numeric_head {c x : Char} {t : List Char} (hc : numericChar c = false)
    (hx : numericChar x = true) (h : c ∈ x :: t) : c ∈ t := by
  rcases List.mem_cons.1 h with e | e
  · exact absurd e (ne_of_not_numeric hc x hx)
  · exact e

theorem exponentPart_none_of_mem {c : Char} (hc : numericChar c = false) :
    ∀ {l : List Char}, c ∈ l → exponentPart l = none := by
  intro l hl
  cases l with
  | nil => exact absurd hl (List.not_mem_nil _)
  | cons x t =>
    simp only [exponentPart]
    by_cases hx : x = 'e' ∨ x = 'E'
    · rw [if_pos hx]
      have hxn : numericChar x = true := by
        rcases hx with hx | hx <;> (rw [hx]; decide)
      have hct : c ∈ t := mem_tail_of_numeric_head hc hxn hl
      cases t with
      | nil => rfl
      | cons s d =>
        simp only
        by_cases hs : s = '+'
        · rw [if_pos hs]
          exact exponentDigits_none_of_mem _ hc
            (mem_tail_of_numeric_head hc (by rw [hs]; decide) hct)
        · rw [if_neg hs]
          by_cases hm : s = '-'
          · rw [if_pos hm]
            exact exponentDigits_none_of_mem _ hc
              (mem_tail_of_numeric_head hc (by rw [hm]; decide) hct)
          · rw [if_neg hm]
            exact exponentDigits_none_of_mem _ hc hct
    · rw [if_neg hx]

theorem mem_fractionPart_snd {c : Char} (hc : numericChar c = false) :
    ∀ {l : List Char}, c ∈ l → c ∈ (fractionPart l).2 := by
  intro l hl
  cases l with
  | nil => exact absurd hl (List.not_mem_nil _)
  | cons x t =>
    simp only [fractionPart]
    by_cases hx : x = '.'
    · rw [if_pos hx]
      exact mem_dropWhile_of_false (mem_tail_of_numeric_head hc (by rw [hx]; decide) hl)
        (isDigit_false_of_not_numeric hc)
    · rw [if_neg hx]
      exact hl

theorem unsignedDecimal_nan_of_mem (neg : Bool) {c : Char} (hc : numericChar c = false)
    {l : List Char} (hl : c ∈ l) : unsignedDecimal neg l = .nan := by
  unfold unsignedDecimal
  have hinf : l ≠ "Infinity".data := by
    intro e
    rw [e] at hl
    have hall : ∀ x ∈ "Infinity".data, numericChar x = true := by decide
    rw [hall c hl] at hc
    exact absurd hc (by decide)
  rw [if_neg hinf]
  simp only
  split
  · rfl
  · have hmem : c ∈ (fractionPart (l.dropWhile isDigit)).2 :=
      mem_fractionPart_snd hc (mem_dropWhile_of_false hl (isDigit_false_of_not_numeric hc))
    rw [exponentPart_none_of_mem hc hmem]

theorem radixLiteral_nan_of_mem (base : Nat) {c : Char} (hc : numericChar c = false)
    {l : List Char} (hl : c ∈ l) : radixLiteral base l = .nan := by
  unfold radixLiteral
  rw [radixValue_none_of_mem base (hexValue_none_of_not_numeric hc) hl]

theorem mem_drop_two_of_radixMark {c lo up : Char} (hc : numericChar c = false)
    (hlo : numericChar lo = true) (hup : numericChar up = true) {l : List Char}
    (hm : radixMark lo up l = true) (hl : c ∈ l) : c ∈ l.drop 2 := by
  match l, hm, hl with
  | a :: b :: t, hm, hl =>
    simp only [radixMark, Bool.and_eq_true, Bool.or_eq_true, decide_eq_true_eq] at hm
    have ha : numericChar a = true := by rw [hm.1]; decide
    have hb : numericChar b = true := by
      rcases hm.2 with e | e <;> (rw [e]; assumption)
    exact mem_tail_of_numeric_head hc hb (mem_tail_of_numeric_head hc ha hl)

theorem stringToNumber_nan_of_mem (s : String) (c : Char) (hmem : c ∈ s.data)
    (hw : isWhiteSpace c = false) (hc : numericChar c = false) :
    stringToNumber s = .nan := by
  have hl := mem_trimChars hmem hw
  unfold stringToNumber
  simp only
  split
  · rename_i heq
    rw [heq] at hl
    exact absurd hl (List.not_mem_nil _)
  · rename_i x t heq
    have hl2 : c ∈ x :: t := heq ▸ hl
    split_ifs with h1 h2 h3 h4 h5
    · exact radixLiteral_nan_of_mem 16 hc
        (mem_drop_two_of_radixMark hc (by decide) (by decide) h1 hl)
    · exact radixLiteral_nan_of_mem 8 hc
        (mem_drop_two_of_radixMark hc (by decide) (by decide) h2 hl)
    · exact radixLiteral_nan_of_mem 2 hc
        (mem_drop_two_of_radixMark hc (by decide) (by decide) h3 hl)
    · exact unsignedDecimal_nan_of_mem false hc
        (mem_tail_of_numeric_head hc (by rw [h4]; decide) hl2)
    · exact unsignedDecimal_nan_of_mem true hc
        (mem_tail_of_numeric_head hc (by rw [h5]; decide) hl2)
    · exact unsignedDecimal_nan_of_mem false hc hl

theorem dropWhile_eq_self_of_all_false {p : Char → Bool} :
    ∀ {l : List Char}, (∀ c ∈ l, p c = false) → l.dropWhile p = l := by
  intro l h
  cases l with
  | nil => rfl
  | cons a t =>
    rw [List.dropWhile_cons, h a (List.mem_cons_self a t)]
    rfl

theorem trimChars_eq_self {l : List Char} (h : ∀ c ∈ l, isWhiteSpace c = false) :
    trimChars l = l := by
  unfold trimChars
  rw [dropWhile_eq_self_of_all_false h,
    dropWhile_eq_self_of_all_false (fun c hc => h c (List.mem_reverse.1 hc)),
    List.reverse_reverse]

theorem digit_range {c : Char} (h : isDigit c = true) : 48 ≤ c.toNat ∧ c.toNat ≤ 57 := by
  unfold isDigit at h
  simpa using h

theorem isWhiteSpace_false_of_digit {c : Char} (h : isDigit c = true) :
    isWhiteSpace c = false := by
  have hr := digit_range h
  unfold isWhiteSpace
  simp only [Bool.or_eq_false_iff, Bool.and_eq_false_iff, decide_eq_false_iff_not]
  omega

theorem digit_ne {c : Char} (h : isDigit c = true) (x : Char) (hx : isDigit x = false) :
    c ≠ x := by
  intro e
  rw [e, hx] at h
  exact absurd h (by decide)

theorem radixMark_false_of_digits (lo up : Char) (hlo : isDigit lo = false)
    (hup : isDigit up = false) {l : List Char} (h : ∀ c ∈ l, isDigit c = true) :
    radixMark lo up l = false := by
  match l, h with
  | [], _ => rfl
  | [_], _ => rfl
  | a :: b :: t, h =>
    have hb : isDigit b = true := h b (by simp)
    simp [radixMark, digit_ne hb lo hlo, digit_ne hb up hup]

theorem bits_zero (fuel : Nat) : bits fuel 0 = 0 := by
  cases fuel <;> simp [bits]

theorem bits_spec : ∀ (fuel n : Nat), n ≤ fuel → 0 < n →
    0 < bits fuel n ∧ 2 ^ (bits fuel n - 1) ≤ n ∧ n < 2 ^ bits fuel n := by
  intro fuel
  induction fuel with
  | zero => intro n h hn; omega
  | succ f ih =>
    intro n h hn
    have hne : n ≠ 0 := Nat.pos_iff_ne_zero.1 hn
    simp only [bits, if_neg hne]
    by_cases h2 : n / 2 = 0
    · have h1 : n = 1 := by omega
      rw [h2, bits_zero, h1]
      simp
    · have hle : n / 2 ≤ f := by omega
      obtain ⟨hk, hlo, hhi⟩ := ih (n / 2) hle (Nat.pos_iff_ne_zero.2 h2)
      refine ⟨Nat.succ_pos _, ?_, ?_⟩
      · have : bits f (n / 2) + 1 - 1 = (bits f (n / 2) - 1) + 1 := by omega
        rw [this, pow_succ]
        omega
      · rw [pow_succ]
        omega

theorem ilog2_spec (n : Nat) (hn : 0 < n) : 2 ^ ilog2 n ≤ n ∧ n < 2 ^ (ilog2 n + 1) := by
  obtain ⟨hk, hlo, hhi⟩ := bits_spec n n (le_refl n) hn
  unfold ilog2
  refine ⟨hlo, ?_⟩
  have : bits n n - 1 + 1 = bits n n := by omega
  rw [this]
  exact hhi

theorem stripZeros_mul_pow (m : Int) : ∀ k : Nat, stripZeros (m * 10 ^ k) k = .dec m 0 := by
  intro k
  induction k with
  | zero => simp [stripZeros]
  | succ k ih =>
    have h1 : m * 10 ^ (k + 1) % 10 = 0 := by
      rw [pow_succ, ← mul_assoc]
      exact Int.mul_emod_left _ _
    have h2 : m * 10 ^ (k + 1) / 10 = m * 10 ^ k := by
      rw [pow_succ, ← mul_assoc]
      exact Int.mul_ediv_cancel _ (by decide)
    simp only [stripZeros, h1, if_true, h2]
    exact ih

theorem roundBinary64_exact (n : Nat) (hpos : 0 < n) (hlt : n < 2 ^ 53) :
    roundBinary64 false n 1 = .dec (n : Int) 0 := by
  obtain ⟨hlo, hhi⟩ := ilog2_spec n hpos
  have hL : ilog2 n + 1 ≤ 53 := by
    by_contra hcon
    have h53 : 53 ≤ ilog2 n := by omega
    have := Nat.pow_le_pow_right (by decide : 0 < 2) h53
    omega
  have h1 : ilog2 1 = 0 := rfl
  obtain ⟨k, hk⟩ : ∃ k, ilog2 n + k = 52 := ⟨52 - ilog2 n, by omega⟩
  have hb0 : ((ilog2 n : Nat) : Int) - ((ilog2 1 : Nat) : Int) = (ilog2 n : Int) := by
    rw [h1]; simp
  have hx : max ((ilog2 n : Int) - 52) (-1074) = -(k : Int) := by
    have : (ilog2 n : Int) - 52 = -(k : Int) := by omega
    rw [this]
    exact max_eq_left (by omega)
  have hn2 : n * 2 ^ k < 2 ^ 53 := by
    have : 2 ^ (ilog2 n + 1) * 2 ^ k = 2 ^ 53 := by
      rw [← pow_add]
      congr 1
      omega
    calc n * 2 ^ k < 2 ^ (ilog2 n + 1) * 2 ^ k :=
          Nat.mul_lt_mul_of_pos_right hhi (by positivity)
      _ = 2 ^ 53 := this
  unfold roundBinary64
  simp only [hb0, Int.toNat_ofNat, Int.toNat_neg_nat, pow_zero, mul_one, one_mul, hlo, if_true,
    hx, neg_neg, Nat.mod_one, Nat.div_one, mul_zero, Nat.not_lt_zero, false_or, false_and,
    if_false, Bool.false_eq_true, zero_ne_one]
  have hov : ¬ 2 ^ 1024 ≤ n * 2 ^ k := by
    have : (2 : Nat) ^ 53 ≤ 2 ^ 1024 := Nat.pow_le_pow_right (by decide) (by decide)
    omega
  rw [if_neg hov]
  have hmul : ((n * 2 ^ k : Nat) : Int) * 5 ^ k = (n : Int) * 10 ^ k := by
    push_cast
    rw [mul_assoc, ← mul_pow]
    norm_num
  rw [hmul, stripZeros_mul_pow]
  by_cases hk0 : k = 0
  · subst hk0
    simp
  · have : ¬ (0 : Int) ≤ -(k : Int) := by omega
    rw [if_neg this]

theorem finite_of_small (n : Nat) (hpos : 0 < n) (hlt : n < 2 ^ 53) :
    finite false n 0 = .dec (n : Int) 0 := by
  unfold finite
  have h0 : n ≠ 0 := Nat.pos_iff_ne_zero.1 hpos
  simp only [h0, if_false, le_refl, if_true, Int.toNat_zero, pow_zero, mul_one]
  exact roundBinary64_exact n hpos hlt

theorem unsignedDecimal_digits {l : List Char} (hne : l ≠ [])
    (hd : ∀ c ∈ l, isDigit c = true) :
    unsignedDecimal false l = finite false (decimalValue l) 0 := by
  unfold unsignedDecimal
  have hinf : l ≠ "Infinity".data := by
    intro e
    have := hd 'I' (by rw [e]; decide)
    exact absurd this (by decide)
  have htake : l.takeWhile isDigit = l := List.takeWhile_eq_self_iff.2 hd
  have hdrop : l.dropWhile isDigit = [] := List.dropWhile_eq_nil_iff.2 hd
  rw [if_neg hinf]
  simp only [htake, hdrop, fractionPart, exponentPart, List.append_nil]
  simp [hne]

theorem stringToNumber_digits (l : List Char) (hne : l ≠ [])
    (hd : ∀ c ∈ l, isDigit c = true) (hpos : 0 < decimalValue l)
    (hlt : decimalValue l < 2 ^ 53) :
    stringToNumber ⟨l⟩ = .dec (decimalValue l : Int) 0 := by
  have hbound : decimalValue l < 2 ^ 53 := hlt
  unfold stringToNumber
  simp only
  rw [trimChars_eq_self (fun c hc => isWhiteSpace_false_of_digit (hd c hc))]
  match l, hne, hd, hpos, hbound with
  | c :: t, _, hd, hpos, hbound =>
    simp only
    have hc : isDigit c = true := hd c (List.mem_cons_self c t)
    rw [radixMark_false_of_digits _ _ (by decide) (by decide) hd,
      radixMark_false_of_digits _ _ (by decide) (by decide) hd,
      radixMark_false_of_digits _ _ (by decide) (by decide) hd]
    simp only [Bool.false_eq_true, if_false, digit_ne hc _ (by decide : isDigit '+' = false),
      digit_ne hc _ (by decide : isDigit '-' = false)]
    rw [unsignedDecimal_digits (List.cons_ne_nil c t) hd, finite_of_small _ hpos hbound]

/-! ## Lemmas on the JSON shape of a collection -/

theorem asStrings_map_str (l : List String) : asStrings (l.map JVal.str) = some l := by
  induction l with
  | nil => rfl
  | cons a t ih => simp [asStrings, ih]

theorem asRecipe_ofRecipe (r : Recipe) : asRecipe (ofRecipe r) = some r := by
  obtain ⟨id, title, tags, servings, time, ingredients, steps, favorite, image⟩ := r
  cases tags <;> cases ingredients <;> cases image <;>
    simp [ofRecipe, asRecipe, member, asOptStrings, asStrings_map_str]

theorem asRecipes_map_ofRecipe (c : List Recipe) : asRecipes (c.map ofRecipe) = some c := by
  induction c with
  | nil => rfl
  | cons a t ih => simp [asRecipes, asRecipe_ofRecipe, ih]

theorem asCollection_ofCollection (c : List Recipe) :
    asCollection (ofCollection c) = some c :=
  asRecipes_map_ofRecipe c

/-! ## Lemmas on `join` and on letter case -/

theorem join_cons_append (sep x y : String) (t : List String) :
    join sep ((x ++ y) :: t) = x ++ join sep (y :: t) := by
  cases t with
  | nil => rfl
  | cons c u => simp only [join, String.append_assoc]

theorem join_cons_eq_go (sep : String) : ∀ (l : List String) (a : String),
    join sep (a :: l) = String.intercalate.go a sep l := by
  intro l
  induction l with
  | nil => intro a; rfl
  | cons b t ih =>
    intro a
    have h1 : join sep (a :: b :: t) = a ++ sep ++ join sep (b :: t) := rfl
    have h2 : String.intercalate.go a sep (b :: t)
        = String.intercalate.go (a ++ sep ++ b) sep t := rfl
    rw [h1, h2, ← ih (a ++ sep ++ b), join_cons_append]

theorem join_eq_intercalate (sep : String) (l : List String) :
    join sep l = sep.intercalate l := by
  cases l with
  | nil => rfl
  | cons a t => exact join_cons_eq_go sep t a

theorem hay_eq (r : Recipe) :
    hay r = r.title ++ " " ++ " ".intercalate (r.tags.getD []) ++ " "
      ++ " ".intercalate (r.ingredients.getD []) := by
  unfold hay tagsOf ingredientsOf
  rw [join_eq_intercalate, join_eq_intercalate]

theorem asciiLower_eq_self (s : String)
    (h : ∀ c ∈ s.data, ¬ (65 ≤ c.toNat ∧ c.toNat ≤ 90)) : asciiLower s = s := by
  unfold asciiLower
  apply String.ext
  show s.data.map Char.toLower = s.data
  conv_rhs => rw [← List.map_id s.data]
  apply List.map_congr_left
  intro c hc
  unfold Char.toLower
  simp only [ge_iff_le, id_eq]
  rw [if_neg (h c hc)]

/-! ## The claims -/

/-- C1: on a collection with pairwise distinct ids, `saveRecipe` with a record
whose id is the one of the record at index `i` keeps the length, puts the
record at index `i` and leaves every other index as it was; with a record
whose id no record has, it yields the record followed by the old collection,
one longer. -/
theorem C1_saveRecipe_upsert (prev : List Recipe) (r : Recipe) (hnd : (ids prev).Nodup) :
    (∀ (i : Nat) (hi : i < prev.length), (prev.get ⟨i, hi⟩).id = r.id →
      (saveRecipe r prev).length = prev.length ∧
      (saveRecipe r prev)[i]? = some r ∧
      ∀ j, j ≠ i → (saveRecipe r prev)[j]? = prev[j]?) ∧
    (r.id ∉ ids prev →
      saveRecipe r prev = r :: prev ∧ (saveRecipe r prev).length = prev.length + 1) := by
  constructor
  · intro i hi hid
    have hmem : r.id ∈ ids prev := by
      rw [← hid]
      exact List.mem_map_of_mem _ (List.get_mem prev i hi)
    rw [saveRecipe_present r prev hmem, map_replace_eq_set r prev hnd i hi hid]
    refine ⟨List.length_set _ _ _, ?_, ?_⟩
    · simp [List.getElem?_set, hi]
    · intro j hj
      simp [List.getElem?_set, Ne.symm hj]
  · intro h
    rw [saveRecipe_absent r prev h]
    exact ⟨rfl, rfl⟩

/-- Witness of C1: an edit of the second sample recipe stays at index 1, and
a record with a new id goes to the front. -/
theorem C1_saveRecipe_upsert_witness :
    (saveRecipe (exampleRecipe "b" "Pasta") (sampleRecipes "a" "b"))[1]?
        = some (exampleRecipe "b" "Pasta") ∧
      saveRecipe (exampleRecipe "c" "Soup") (sampleRecipes "a" "b")
        = exampleRecipe "c" "Soup" :: sampleRecipes "a" "b" :=
  ⟨((C1_saveRecipe_upsert (sampleRecipes "a" "b") (exampleRecipe "b" "Pasta")
      (by decide)).1 1 (by decide) (by decide)).2.1,
   ((C1_saveRecipe_upsert (sampleRecipes "a" "b") (exampleRecipe "c" "Soup")
      (by decide)).2 (by decide)).1⟩

/-- C5: a confirmed `deleteRecipe id` yields exactly the records whose id
differs from `id`, in their original order; when no record has the id the
collection is unchanged. -/
theorem C5_deleteRecipe (prev : List Recipe) (id : String) :
    deleteRecipe true id prev = prev.filter (fun r => decide (r.id ≠ id)) ∧
    (deleteRecipe true id prev).Sublist prev ∧
    (∀ r, r ∈ deleteRecipe true id prev ↔ r ∈ prev ∧ r.id ≠ id) ∧
    (id ∉ ids prev →
      deleteRecipe true id prev = prev ∧ (deleteRecipe true id prev).length = prev.length) := by
  have hdef : deleteRecipe true id prev = prev.filter (fun r => decide (r.id ≠ id)) := rfl
  refine ⟨hdef, ?_, ?_, ?_⟩
  · rw [hdef]
    exact List.filter_sublist prev
  · intro r
    rw [hdef]
    simp [List.mem_filter]
  · intro h
    have : deleteRecipe true id prev = prev := by
      rw [hdef, List.filter_eq_self]
      intro r hr
      have : r.id ≠ id := fun e => h (e ▸ List.mem_map_of_mem _ hr)
      simpa using this
    exact ⟨this, by rw [this]⟩

/-- Witness of C5: deleting an id that no sample recipe has changes nothing. -/
theorem C5_deleteRecipe_witness :
    deleteRecipe true "z" (sampleRecipes "a" "b") = sampleRecipes "a" "b" :=
  ((C5_deleteRecipe (sampleRecipes "a" "b") "z").2.2.2 (by decide)).1

/-- C6: `toggleFavorite id` applied twice gives back the collection it
started from; applied once it keeps the length and every record, changing only
the `favorite` flag of the records with that id; with an id that no record has
it changes nothing. -/
theorem C6_toggleFavorite (prev : List Recipe) (id : String) :
    toggleFavorite id (toggleFavorite id prev) = prev ∧
    (toggleFavorite id prev).length = prev.length ∧
    (∀ (i : Nat) (hi : i < prev.length),
      (toggleFavorite id prev)[i]? =
        some (if prev[i].id = id then { prev[i] with favorite := !prev[i].favorite }
              else prev[i])) ∧
    (id ∉ ids prev → toggleFavorite id prev = prev) := by
  refine ⟨?_, ?_, ?_, ?_⟩
  · unfold toggleFavorite
    rw [List.map_map]
    conv_rhs => rw [← List.map_id prev]
    apply List.map_congr_left
    intro r _
    by_cases h : r.id = id
    · subst h
      simp
    · simp [h]
  · simp [toggleFavorite]
  · intro i hi
    simp [toggleFavorite, List.getElem?_map, List.getElem?_eq_getElem hi]
  · intro h
    unfold toggleFavorite
    conv_rhs => rw [← List.map_id prev]
    apply List.map_congr_left
    intro r hr
    have : r.id ≠ id := fun e => h (e ▸ List.mem_map_of_mem _ hr)
    simp [this]

/-- Witness of C6: toggling an id that no sample recipe has changes nothing. -/
theorem C6_toggleFavorite_witness :
    toggleFavorite "z" (sampleRecipes "a" "b") = sampleRecipes "a" "b" :=
  (C6_toggleFavorite (sampleRecipes "a" "b") "z").2.2.2 (by decide)

/-- C7: from a collection with pairwise distinct ids, every sequence of
`saveRecipe`, `deleteRecipe` and `toggleFavorite` leads to a collection with
pairwise distinct ids; and after a further `saveRecipe r` the id of `r` occurs
exactly once. -/
theorem C7_ids_distinct (c : List Recipe) (hnd : (ids c).Nodup) (acts : List Action) :
    (ids (run c acts)).Nodup ∧
    ∀ r : Recipe, (ids (saveRecipe r (run c acts))).count r.id = 1 := by
  have h := nodup_run acts c hnd
  refine ⟨h, fun r => ?_⟩
  exact List.count_eq_one_of_mem (nodup_saveRecipe r _ h) (mem_ids_saveRecipe r _)

/-- Witness of C7: the sample recipes, after a save, a toggle and a delete. -/
theorem C7_ids_distinct_witness :
    (ids (run (sampleRecipes "a" "b")
      [.save (exampleRecipe "b" "Pasta"), .toggle "a", .delete "a" true])).Nodup :=
  (C7_ids_distinct (sampleRecipes "a" "b") (by decide) _).1

/-- C10 as stated fails: the tags apple, Zeta and banana are listed as Zeta,
apple, banana, which is not alphabetical order. -/
theorem C10_allTags_counterexample :
    allTags [taggedRecipe "a" ["apple", "Zeta", "banana"]] = ["Zeta", "apple", "banana"] ∧
      ¬ (allTags [taggedRecipe "a" ["apple", "Zeta", "banana"]]).Pairwise
          (fun a b => alphabeticalCompare a b ≤ 0) := by
  decide

/-- C10, amended: `allTags` has no duplicates, holds exactly the strings that
occur in the tags of some record of the collection, and is strictly ascending
in the order of the default sort: strings compared by their UTF-16 code
units. That is alphabetical order when no tag holds one of the letters `A` to
`Z`. -/
theorem C10_allTags (recipes : List Recipe) :
    (allTags recipes).Nodup ∧
    (∀ t, t ∈ allTags recipes ↔ ∃ r ∈ recipes, ∃ ts, r.tags = some ts ∧ t ∈ ts) ∧
    (allTags recipes).Pairwise (fun a b => defaultCompare a b < 0) ∧
    ((∀ t ∈ allTags recipes, ∀ c ∈ t.data, ¬ (65 ≤ c.toNat ∧ c.toNat ≤ 90)) →
      (allTags recipes).Pairwise (fun a b => alphabeticalCompare a b < 0)) := by
  have hperm := sortWith_perm defaultCompare (setFromList (recipes.flatMap tagsOf))
  have hnd : (allTags recipes).Nodup := (List.Perm.nodup_iff hperm).2 (nodup_setFromList _)
  have hsorted : (allTags recipes).Pairwise (fun a b => defaultCompare a b < 0) := by
    have hs := sortWith_sorted defaultCompare defaultCompare_total defaultCompare_trans
      (setFromList (recipes.flatMap tagsOf))
    have hboth := List.Pairwise.and hs hnd
    exact List.Pairwise.imp (fun h => defaultCompare_lt_of_ne _ _ h.2 h.1) hboth
  refine ⟨hnd, ?_, hsorted, ?_⟩
  · intro t
    unfold allTags
    rw [List.Perm.mem_iff hperm, mem_setFromList, List.mem_flatMap]
    constructor
    · rintro ⟨r, hr, ht⟩
      cases hts : r.tags with
      | none => rw [tagsOf, hts] at ht; exact absurd ht (List.not_mem_nil _)
      | some ts => rw [tagsOf, hts] at ht; exact ⟨r, hr, ts, hts, ht⟩
    · rintro ⟨r, hr, ts, hts, ht⟩
      exact ⟨r, hr, by rw [tagsOf, hts]; exact ht⟩
  · intro hlow
    refine List.Pairwise.imp_of_mem ?_ hsorted
    intro a b ha hb hab
    unfold alphabeticalCompare
    rw [asciiLower_eq_self a (hlow a ha), asciiLower_eq_self b (hlow b hb)]
    exact hab

/-- Witness of C10: the tags of the sample recipes, which hold no upper-case
letter, are listed in alphabetical order; a tag that two records share is
listed once, and a record without tags adds nothing. -/
theorem C10_allTags_witness :
    (allTags (sampleRecipes "a" "b")).Pairwise (fun a b => alphabeticalCompare a b < 0) ∧
      allTags (sampleRecipes "a" "b") = ["breakfast", "dinner", "easy", "vegetarian"] ∧
      allTags [taggedRecipe "a" ["soup", "easy"], taggedRecipe "b" ["easy", "soup", "easy"],
          { taggedRecipe "c" [] with tags := none }]
        = ["easy", "soup"] :=
  ⟨(C10_allTags (sampleRecipes "a" "b")).2.2.2 (by decide), by decide, by decide⟩

/-- C2: for a `localeCompare` that is a total preorder, the visible list
`filtered` is the stable sort of the records that pass the filters: it is a
permutation of them, no record with `favorite = false` precedes one with
`favorite = true`, records with equal `favorite` are in ascending title order,
and two records with equal `favorite` and equal title keep the relative order
they have in the collection. -/
theorem C2_filtered_stable_sort (h : Host)
    (htot : ∀ s t, h.localeCompare s t ≤ 0 ∨ h.localeCompare t s ≤ 0)
    (htrans : ∀ s t u, h.localeCompare s t ≤ 0 → h.localeCompare t u ≤ 0 →
      h.localeCompare s u ≤ 0)
    (recipes : List Recipe) (query tagFilter : String) :
    (filtered h recipes query tagFilter).Perm (recipes.filter (keep h query tagFilter)) ∧
    (filtered h recipes query tagFilter).Pairwise (fun a b =>
      (b.favorite = true → a.favorite = true) ∧
      (a.favorite = b.favorite → h.localeCompare a.title b.title ≤ 0)) ∧
    (∀ a b : Recipe, a.favorite = b.favorite → a.title = b.title →
      keep h query tagFilter a = true → keep h query tagFilter b = true →
      [a, b].Sublist recipes → [a, b].Sublist (filtered h recipes query tagFilter)) := by
  refine ⟨sortWith_perm _ _, ?_, ?_⟩
  · have hs := sortWith_sorted (compareFn h) (compareFn_total h htot)
      (compareFn_trans h htrans) (recipes.filter (keep h query tagFilter))
    refine List.Pairwise.imp ?_ hs
    intro a b hab
    rcases (compareFn_le_iff h a b).1 hab with ⟨hf, hl⟩ | ⟨ha, hb⟩
    · exact ⟨fun hb => by rw [hf]; exact hb, fun _ => hl⟩
    · exact ⟨fun _ => ha, fun hf => by rw [ha, hb] at hf; exact absurd hf (by decide)⟩
  · intro a b hf ht ka kb hsub
    have hle : compareFn h a b ≤ 0 := by
      refine (compareFn_le_iff h a b).2 (Or.inl ⟨hf, ?_⟩)
      rw [ht]
      exact (htot b.title b.title).elim id id
    have hfil : [a, b].Sublist (recipes.filter (keep h query tagFilter)) := by
      have := List.Sublist.filter (keep h query tagFilter) hsub
      simpa [List.filter, ka, kb] using this
    exact sortWith_stable (compareFn h) _ a b hle hfil

/-- Witness of C2 (scenario 1): with no query and no tag filter the sample
recipes are shown with the favorite, Simple Tomato Pasta, first. -/
theorem C2_filtered_stable_sort_witness :
    (filtered asciiHost (sampleRecipes "a" "b") "" "").Perm
        ((sampleRecipes "a" "b").filter (keep asciiHost "" "")) ∧
      (filtered asciiHost (sampleRecipes "a" "b") "" "").map (fun r => r.title)
        = ["Simple Tomato Pasta", "Classic Pancakes"] :=
  ⟨(C2_filtered_stable_sort asciiHost defaultCompare_total defaultCompare_trans
      (sampleRecipes "a" "b") "" "").1, by decide⟩

/-- C3: with no tag filter, a recipe passes the filter exactly when the
trimmed, lower-cased query is a substring of the lower-cased text made of the
title, the tags joined by blanks and the ingredients joined by blanks, the
three parts separated by one blank each; a query of white space only (or
empty) lets every recipe pass. -/
theorem C3_text_filter (h : Host) (hlow : h.toLowerCase "" = "") (r : Recipe)
    (query : String) :
    (keep h query "" r = true ↔
      ∃ pre post : List Char,
        (h.toLowerCase
            (r.title ++ " " ++ " ".intercalate (r.tags.getD []) ++ " "
              ++ " ".intercalate (r.ingredients.getD []))).data
          = pre ++ (h.toLowerCase (trim query)).data ++ post) ∧
    ((∀ c ∈ query.data, isWhiteSpace c = true) → keep h query "" r = true) := by
  constructor
  · rw [← hay_eq, keep_no_tagFilter, ← includes_iff]
    constructor
    · rintro (hq | hi)
      · rw [hq]
        exact includes_empty _
      · exact hi
    · exact Or.inr
  · intro hw
    rw [keep_no_tagFilter, trim_of_all_white query hw]
    exact Or.inl hlow

/-- Witness of C3 (scenario 2): a query of white space keeps a recipe, and on
the sample recipes the query `tomato` shows Simple Tomato Pasta only. A query
is matched in the tags (`breakfast`), in the ingredients (`basil`, and `salt`
for both recipes), across the blanks that join the parts (`pancakes breakfast
easy 1 1/2 cups`), without regard to case or surrounding blanks, and not
across parts without the blank (`pancakesbreakfast`). -/
theorem C3_text_filter_witness :
    keep asciiHost " \t\n" "" (exampleRecipe "a" "Soup") = true ∧
      (filtered asciiHost (sampleRecipes "a" "b") "tomato" "").map (fun r => r.title)
        = ["Simple Tomato Pasta"] ∧
      (filtered asciiHost (sampleRecipes "a" "b") "breakfast" "").map (fun r => r.title)
        = ["Classic Pancakes"] ∧
      (filtered asciiHost (sampleRecipes "a" "b") "basil" "").map (fun r => r.title)
        = ["Simple Tomato Pasta"] ∧
      (filtered asciiHost (sampleRecipes "a" "b") "salt" "").map (fun r => r.title)
        = ["Simple Tomato Pasta", "Classic Pancakes"] ∧
      (filtered asciiHost (sampleRecipes "a" "b") "pancakes breakfast easy 1 1/2 cups" "").map
          (fun r => r.title)
        = ["Classic Pancakes"] ∧
      (filtered asciiHost (sampleRecipes "a" "b") "vegetarian 200g PASTA 2 cups" "").map
          (fun r => r.title)
        = ["Simple Tomato Pasta"] ∧
      (filtered asciiHost (sampleRecipes "a" "b") "  Olive OIL salt " "").map
          (fun r => r.title)
        = ["Simple Tomato Pasta"] ∧
      filtered asciiHost (sampleRecipes "a" "b") "pancakesbreakfast" "" = [] :=
  ⟨(C3_text_filter asciiHost rfl (exampleRecipe "a" "Soup") " \t\n").2 (by decide),
    by decide, by decide, by decide, by decide, by decide, by decide, by decide, by decide⟩

/-- C4: with an empty query, an empty tag filter lets every recipe pass, and a
non-empty tag filter lets a recipe pass exactly when its tags hold a string
equal to the filter value; the `favorite` flag has no influence, whatever the
filter value, the sentinel `favorite` included. -/
theorem C4_tag_filter (h : Host) (hlow : h.toLowerCase "" = "") (r : Recipe)
    (tagFilter : String) :
    (tagFilter = "" → keep h "" tagFilter r = true) ∧
    (tagFilter ≠ "" → (keep h "" tagFilter r = true ↔ tagFilter ∈ tagsOf r)) ∧
    (∀ b : Bool, keep h "" tagFilter { r with favorite := b } = keep h "" tagFilter r) ∧
    (keep h "" "favorite" r = true ↔ "favorite" ∈ tagsOf r) := by
  refine ⟨?_, ?_, ?_, ?_⟩
  · intro ht
    exact (keep_no_query h hlow tagFilter r).2 (Or.inl ht)
  · intro ht
    rw [keep_no_query h hlow tagFilter r]
    exact ⟨fun hk => hk.resolve_left ht, Or.inr⟩
  · intro b
    rfl
  · rw [keep_no_query h hlow "favorite" r]
    exact ⟨fun hk => hk.resolve_left (by decide), Or.inr⟩

/-- Witness of C4 (scenario 3): the tag filter `vegetarian` shows Simple
Tomato Pasta only, the sentinel `favorite` hides that favorite recipe, and
the tag `easy` is matched by `easy` but not by `Easy`. -/
theorem C4_tag_filter_witness :
    (keep asciiHost "" "favorite" (exampleRecipe "a" "Soup") = true
        ↔ "favorite" ∈ tagsOf (exampleRecipe "a" "Soup")) ∧
      (filtered asciiHost (sampleRecipes "a" "b") "" "vegetarian").map (fun r => r.title)
        = ["Simple Tomato Pasta"] ∧
      filtered asciiHost (sampleRecipes "a" "b") "" "favorite" = [] ∧
      keep asciiHost "" "easy" (exampleRecipe "a" "Soup") = true ∧
      keep asciiHost "" "Easy" (exampleRecipe "a" "Soup") = false :=
  ⟨(C4_tag_filter asciiHost rfl (exampleRecipe "a" "Soup") "favorite").2.2.2,
    by decide, by decide, by decide, by decide⟩

/-- C8 as stated fails: the servings texts `-3` and `2.5` are kept as the
numbers -3 and 2.5, neither of which is a positive integer. -/
theorem C8_servings_counterexample :
    (submit none "u" (exampleForm "-3")).servings = .dec (-3) 0 ∧
      (submit none "u" (exampleForm "-3")).servings.isPositiveInteger = false ∧
      (submit none "u" (exampleForm "2.5")).servings = .dec 25 (-1) ∧
      (submit none "u" (exampleForm "2.5")).servings.isPositiveInteger = false := by
  decide

/-- C8, amended: the servings of the record built by `submit` is never `NaN`
or zero. It is 1 whenever `Number` of the raw input is `NaN` or zero, which
covers the empty or blank input and every input holding a character that
occurs in no numeric literal; otherwise it is the number the input denotes,
unchanged, and in particular the positive integer written by a digit sequence
of positive value (below `2 ^ 53`). -/
theorem C8_servings (initial : Option Recipe) (uid : String) (f : FormState) :
    (submit initial uid f).servings.falsy = false ∧
    (toNumber f.servings = .nan → (submit initial uid f).servings = .dec 1 0) ∧
    ((toNumber f.servings).falsy = true → (submit initial uid f).servings = .dec 1 0) ∧
    ((toNumber f.servings).falsy = false →
      (submit initial uid f).servings = toNumber f.servings) ∧
    (∀ s : String, f.servings = .text s → (∀ c ∈ s.data, isWhiteSpace c = true) →
      (submit initial uid f).servings = .dec 1 0) ∧
    (∀ (s : String) (c : Char), f.servings = .text s → c ∈ s.data →
      isWhiteSpace c = false → numericChar c = false →
      (submit initial uid f).servings = .dec 1 0) ∧
    (∀ l : List Char, f.servings = .text ⟨l⟩ → l ≠ [] → (∀ c ∈ l, isDigit c = true) →
      0 < decimalValue l → decimalValue l < 2 ^ 53 →
      (submit initial uid f).servings = .dec (decimalValue l : Int) 0 ∧
      (submit initial uid f).servings.isPositiveInteger = true) := by
  have hs : (submit initial uid f).servings = servingsOf f.servings := rfl
  have h1 : (toNumber f.servings).falsy = true → servingsOf f.servings = .dec 1 0 := by
    intro h
    unfold servingsOf
    rw [if_pos h]
  have h2 : (toNumber f.servings).falsy = false →
      servingsOf f.servings = toNumber f.servings := by
    intro h
    unfold servingsOf
    rw [if_neg (by rw [h]; decide)]
  rw [hs]
  refine ⟨?_, ?_, h1, h2, ?_, ?_, ?_⟩
  · cases h : (toNumber f.servings).falsy with
    | true => rw [h1 h]; rfl
    | false => rw [h2 h]; exact h
  · intro h
    exact h1 (by rw [h]; rfl)
  · intro s hf hw
    apply h1
    rw [hf]
    show (stringToNumber s).falsy = true
    unfold stringToNumber
    simp only
    rw [trimChars_of_all_white s.data hw]
    rfl
  · intro s c hf hmem hw hc
    apply h1
    rw [hf]
    show (stringToNumber s).falsy = true
    rw [stringToNumber_nan_of_mem s c hmem hw hc]
    rfl
  · intro l hf hne hd hpos hlt
    have hv : toNumber f.servings = .dec (decimalValue l : Int) 0 := by
      rw [hf]
      exact stringToNumber_digits l hne hd hpos hlt
    have hnf : (toNumber f.servings).falsy = false := by
      rw [hv]
      simp only [JSNum.falsy, decide_eq_false_iff_not]
      omega
    rw [h2 hnf, hv]
    refine ⟨rfl, ?_⟩
    simp only [JSNum.isPositiveInteger, le_refl, decide_True, Bool.true_or, Bool.and_true,
      decide_eq_true_eq]
    omega

/-- Witness of C8 (scenario 4): the servings text `abc` and a blank title give
servings 1 and the title `Untitled`; the text `2 cups` gives 1 as well, and
the text `12` gives the number 12. -/
theorem C8_servings_witness :
    (submit none "u" { exampleForm "abc" with title := "  " }).servings = .dec 1 0 ∧
      (submit none "u" { exampleForm "abc" with title := "  " }).title = "Untitled" ∧
      (submit none "u" (exampleForm "2 cups")).servings = .dec 1 0 ∧
      (submit none "u" (exampleForm "12")).servings = .dec 12 0 :=
  ⟨(C8_servings none "u" { exampleForm "abc" with title := "  " }).2.1 (by decide),
    by decide,
    (C8_servings none "u" (exampleForm "2 cups")).2.2.2.2.2.1 "2 cups" 'u' rfl (by decide)
      (by decide) (by decide),
    ((C8_servings none "u" (exampleForm "12")).2.2.2.2.2.2 "12".data rfl (by decide)
      (by decide) (by decide) (by decide)).1⟩

/-- C9 as stated fails: when the slot holds the text `42` (or `null`), which
is JSON but not a collection, the initial value of `recipes` is that value,
not the seed set and not a collection. -/
theorem C9_initialRecipes_counterexample :
    initialRecipes jsonParse (ofCollection (sampleRecipes "a" "b")) (.value "42")
        = .num (.dec 42 0) ∧
      asCollection
        (initialRecipes jsonParse (ofCollection (sampleRecipes "a" "b")) (.value "42"))
        = none ∧
      initialRecipes jsonParse (ofCollection (sampleRecipes "a" "b")) (.value "null")
        = .null := by
  refine ⟨by rfl, by rfl, by rfl⟩

/-- C9, amended: whatever `JSON.parse` does, computing the initial value of
`recipes` always yields a value. It is the seed set when the slot cannot be
read, is absent, holds the empty text, or holds a text that `JSON.parse`
rejects; and it is the value `JSON.parse` yields for a non-empty text that it
accepts, hence the persisted collection when that value is one. -/
theorem C9_initialRecipes (parse : String → Option JVal) (seed : JVal) :
    initialRecipes parse seed .throws = seed ∧
    initialRecipes parse seed .absent = seed ∧
    initialRecipes parse seed (.value "") = seed ∧
    (∀ raw : String, parse raw = none → initialRecipes parse seed (.value raw) = seed) ∧
    (∀ (raw : String) (v : JVal), raw ≠ "" → parse raw = some v →
      initialRecipes parse seed (.value raw) = v) ∧
    (∀ (raw : String) (c : List Recipe), raw ≠ "" → parse raw = some (ofCollection c) →
      asCollection (initialRecipes parse seed (.value raw)) = some c) := by
  have hval : ∀ (raw : String) (v : JVal), raw ≠ "" → parse raw = some v →
      initialRecipes parse seed (.value raw) = v := by
    intro raw v hne hp
    simp only [initialRecipes, hne, ne_eq, not_false_eq_true, if_true, hp]
  refine ⟨rfl, rfl, rfl, ?_, hval, ?_⟩
  · intro raw hp
    simp only [initialRecipes, hp]
    split <;> rfl
  · intro raw c hne hp
    rw [hval raw _ hne hp]
    exact asCollection_ofCollection c

/-- Witness of C9 (scenario 5): a slot holding invalid JSON gives the seed set,
and a slot holding a serialized empty collection gives the empty collection. -/
theorem C9_initialRecipes_witness :
    initialRecipes jsonParse (ofCollection (sampleRecipes "a" "b")) (.value "\x7bbad")
        = ofCollection (sampleRecipes "a" "b") ∧
      asCollection
        (initialRecipes jsonParse (ofCollection (sampleRecipes "a" "b")) (.value "[]"))
        = some [] :=
  ⟨(C9_initialRecipes jsonParse (ofCollection (sampleRecipes "a" "b"))).2.2.2.1 "\x7bbad"
      (by rfl),
    (C9_initialRecipes jsonParse (ofCollection (sampleRecipes "a" "b"))).2.2.2.2.2 "[]" []
      (by decide) (by rfl)⟩

end ReactRecipe
